import Mathlib

/-!
Shallow embedding of the `peek` terminal pager (src/src/main.c and the
extended variant in src/unnamed/part_000): text normalization
(overstrike collapse, ANSI escape stripping), line wrapping, language
detection, man-page highlighting, buffer-store lifecycle, viewport
scrolling, and linear wraparound search.  Strings are modelled as
`List Char`; C `int` values that can go negative are modelled as `Int`.
Loops that consume at least one character per iteration are modelled with
an explicit fuel argument instantiated with the input length, which makes
every definition computable by kernel reduction.
-/

namespace Peek

/-- The ESC byte (0x1B). -/
def escChar : Char := Char.ofNat 27

/-- The backspace byte (0x08). -/
def bsChar : Char := Char.ofNat 8

/-- The BEL byte (0x07). -/
def belChar : Char := Char.ofNat 7

/-- C `isspace` on ASCII: space, tab, newline, vertical tab, form feed,
carriage return. -/
def c_isspace (c : Char) : Bool :=
  c = ' ' || c.toNat = 9 || c.toNat = 10 || c.toNat = 11 || c.toNat = 12 ||
    c.toNat = 13

/-! ## LineWrapper (`wrap_line`, main.c lines 294-322)

The C loop repeatedly takes `min(width, remaining)` characters; for a
positive width this is exactly chunking into blocks of `width`. -/

/-- The chunking loop of `wrap_line`: each iteration takes `w` characters
(or the shorter remainder) and advances.  `fuel` bounds the number of
iterations; with `w ≥ 1` a fuel of the input length is always enough. -/
def wrapGo (w : Nat) : Nat → List Char → List (List Char)
  | 0, _ => []
  | _ + 1, [] => []
  | fuel + 1, c :: cs => ((c :: cs).take w) :: wrapGo w fuel ((c :: cs).drop w)

/-- `wrap_line` from main.c: for `width <= 0` the C function returns the
empty result `{0, NULL}` (no segments); an empty line yields one empty
segment; otherwise the line is cut into chunks of `width` characters. -/
def wrap_line (line : List Char) (width : Int) : List (List Char) :=
  if width ≤ 0 then []
  else if line = [] then [[]]
  else wrapGo width.toNat line.length line

/-! ## TextNormalizer: `strip_ansi` (main.c lines 169-192) -/

/-- CSI consumption: skip bytes until one in the final range `'@'..'~'`
(inclusive), consume it, and return the rest of the input. -/
def skip_csi : List Char → List Char
  | [] => []
  | c :: rest => if '@' ≤ c ∧ c ≤ '~' then rest else skip_csi rest

/-- OSC consumption: skip bytes until a BEL (0x07), consume it, and return
the rest of the input. -/
def skip_osc : List Char → List Char
  | [] => []
  | c :: rest => if c = belChar then rest else skip_osc rest

theorem skip_csi_length_le (l : List Char) : (skip_csi l).length ≤ l.length := by
  induction l with
  | nil => simp [skip_csi]
  | cons c rest ih =>
    simp only [skip_csi]
    split
    · simp
    · exact Nat.le_trans ih (Nat.le_succ _)

theorem skip_osc_length_le (l : List Char) : (skip_osc l).length ≤ l.length := by
  induction l with
  | nil => simp [skip_osc]
  | cons c rest ih =>
    simp only [skip_osc]
    split
    · simp
    · exact Nat.le_trans ih (Nat.le_succ _)

/-- The scanning loop of `strip_ansi`.  On ESC: `[` starts a CSI sequence
(consumed through its final byte), `]` starts an OSC sequence (consumed
through a BEL), anything else consumes exactly one following byte; a
truncated sequence at end of input is dropped silently.  Every iteration
consumes at least one character, so a fuel of the input length is enough. -/
def stripGo : Nat → List Char → List Char
  | 0, _ => []
  | _ + 1, [] => []
  | _ + 1, [c] => if c = escChar then [] else [c]
  | fuel + 1, c :: d :: rest =>
    if c = escChar then
      if d = '[' then stripGo fuel (skip_csi rest)
      else if d = ']' then stripGo fuel (skip_osc rest)
      else stripGo fuel rest
    else c :: stripGo fuel (d :: rest)

/-- `strip_ansi` from main.c: drop ANSI/VT escape sequences. -/
def strip_ansi (l : List Char) : List Char := stripGo l.length l

/-! ### Wrapping lemmas -/

theorem wrapGo_nil (w fuel : Nat) : wrapGo w fuel [] = [] := by
  cases fuel <;> rfl

theorem wrapGo_join (w : Nat) (hw : 1 ≤ w) :
    ∀ (fuel : Nat) (l : List Char), l.length ≤ fuel → (wrapGo w fuel l).flatten = l := by
  intro fuel
  induction fuel with
  | zero =>
    intro l hl
    have : l = [] := List.eq_nil_of_length_eq_zero (Nat.le_zero.mp hl)
    subst this; rfl
  | succ fuel ih =>
    intro l hl
    match l with
    | [] => rfl
    | c :: cs =>
      simp only [wrapGo, List.flatten_cons]
      rw [ih ((c :: cs).drop w) (by simp only [List.length_drop, List.length_cons] at *; omega)]
      exact List.take_append_drop w (c :: cs)

theorem wrapGo_length (w : Nat) (hw : 1 ≤ w) :
    ∀ (fuel : Nat) (l : List Char), l ≠ [] → l.length ≤ fuel →
      (wrapGo w fuel l).length = (l.length + w - 1) / w := by
  intro fuel
  induction fuel with
  | zero =>
    intro l hne hl
    exact absurd (List.eq_nil_of_length_eq_zero (Nat.le_zero.mp hl)) hne
  | succ fuel ih =>
    intro l hne hl
    match l with
    | c :: cs =>
      simp only [wrapGo, List.length_cons]
      by_cases hlen : (c :: cs).length ≤ w
      · have hdrop : (c :: cs).drop w = [] := by
          apply List.eq_nil_of_length_eq_zero
          simp only [List.length_drop]; omega
        rw [hdrop, wrapGo_nil]
        simp only [List.length_cons] at hlen
        have hm : cs.length + 1 + w - 1 = cs.length + w := by omega
        simp only [List.length_cons, List.length_nil, hm]
        exact (Nat.div_eq_of_lt_le (by omega) (by omega)).symm
      · push_neg at hlen
        have hdne : (c :: cs).drop w ≠ [] := by
          intro h
          have := congrArg List.length h
          simp only [List.length_drop, List.length_nil] at this
          omega
        rw [ih _ hdne (by simp only [List.length_drop, List.length_cons] at *; omega)]
        simp only [List.length_drop, List.length_cons] at *
        have hrw : cs.length + 1 + w - 1 = (cs.length + 1 - w + w - 1) + w := by omega
        rw [hrw, Nat.add_div_right _ (by omega)]

theorem wrapGo_seg_bounds (w : Nat) (hw : 1 ≤ w) :
    ∀ (fuel : Nat) (l : List Char), ∀ seg ∈ wrapGo w fuel l,
      1 ≤ seg.length ∧ seg.length ≤ w := by
  intro fuel
  induction fuel with
  | zero => intro l seg h; simp [wrapGo] at h
  | succ fuel ih =>
    intro l seg h
    match l with
    | [] => simp [wrapGo] at h
    | c :: cs =>
      simp only [wrapGo, List.mem_cons] at h
      rcases h with h | h
      · subst h
        constructor
        · simp only [List.length_take, List.length_cons]; omega
        · simp only [List.length_take]; omega
      · exact ih _ seg h

theorem wrapGo_dropLast (w : Nat) (hw : 1 ≤ w) :
    ∀ (fuel : Nat) (l : List Char), l.length ≤ fuel →
      ∀ seg ∈ (wrapGo w fuel l).dropLast, seg.length = w := by
  intro fuel
  induction fuel with
  | zero => intro l hl seg h; simp [wrapGo] at h
  | succ fuel ih =>
    intro l hl seg h
    match l with
    | [] => simp [wrapGo] at h
    | c :: cs =>
      simp only [wrapGo] at h
      by_cases hrest : wrapGo w fuel ((c :: cs).drop w) = []
      · rw [hrest] at h; simp at h
      · rw [List.dropLast_cons_of_ne_nil hrest, List.mem_cons] at h
        rcases h with h | h
        · subst h
          have hdne : (c :: cs).drop w ≠ [] := by
            intro hd; rw [hd, wrapGo_nil] at hrest; exact hrest rfl
          have : w < (c :: cs).length := by
            by_contra hc
            push_neg at hc
            apply hdne
            apply List.eq_nil_of_length_eq_zero
            simp only [List.length_drop]; omega
          simp only [List.length_take]; omega
        · exact ih _ (by simp only [List.length_drop, List.length_cons] at *; omega) seg h

/-- C1: `wrap_line` cuts a line into consecutive segments of exactly
`width` characters each except a shorter (but nonempty) final remainder;
concatenating all segments reproduces the line; the segment count is
`ceil(len/width)` for non-empty lines; an empty line yields exactly one
empty segment; and `width <= 0` yields the empty failure result with no
segments. -/
theorem wrap_line_correct (line : List Char) (width : Int) :
    (width ≤ 0 → wrap_line line width = []) ∧
    (0 < width →
      (wrap_line line width).flatten = line ∧
      (line = [] → wrap_line line width = [[]]) ∧
      (line ≠ [] → (wrap_line line width).length =
        (line.length + width.toNat - 1) / width.toNat) ∧
      (∀ seg ∈ (wrap_line line width).dropLast, seg.length = width.toNat) ∧
      (∀ seg ∈ wrap_line line width,
        seg.length ≤ width.toNat ∧ (line ≠ [] → 1 ≤ seg.length))) := by
  constructor
  · intro h
    simp [wrap_line, h]
  · intro hw
    have hw0 : ¬ width ≤ 0 := by omega
    have hw1 : 1 ≤ width.toNat := by omega
    by_cases hline : line = []
    · subst hline
      refine ⟨by simp [wrap_line, hw0], fun _ => by simp [wrap_line, hw0], ?_, ?_, ?_⟩
      · intro h; exact absurd rfl h
      · intro seg h; simp [wrap_line, hw0] at h
      · intro seg h
        simp [wrap_line, hw0] at h
        subst h
        exact ⟨by simp, fun h => absurd rfl h⟩
    · have heq : wrap_line line width = wrapGo width.toNat line.length line := by
        simp [wrap_line, hw0, hline]
      refine ⟨?_, fun h => absurd h hline, ?_, ?_, ?_⟩
      · rw [heq]; exact wrapGo_join _ hw1 _ _ le_rfl
      · intro _; rw [heq]; exact wrapGo_length _ hw1 _ _ hline le_rfl
      · rw [heq]; exact wrapGo_dropLast _ hw1 _ _ le_rfl
      · rw [heq]
        intro seg h
        have := wrapGo_seg_bounds _ hw1 _ _ seg h
        exact ⟨this.2, fun _ => this.1⟩

/-- Witness for C1 at the spec's own examples: width `3` on `"abcdefgh"`
and the failing width `0`. -/
theorem wrap_line_correct_witness :
    (wrap_line "abcdefgh".data 3).flatten = "abcdefgh".data ∧
    (wrap_line "abcdefgh".data 3).length = 3 ∧
    wrap_line "".data 3 = [[]] ∧
    wrap_line "abcdefgh".data 0 = [] := by
  refine ⟨((wrap_line_correct "abcdefgh".data 3).2 (by decide)).1, ?_, ?_, ?_⟩
  · exact (((wrap_line_correct "abcdefgh".data 3).2 (by decide)).2.2.1 (by decide)).trans
      (by decide)
  · exact ((wrap_line_correct "".data 3).2 (by decide)).2.1 rfl
  · exact (wrap_line_correct "abcdefgh".data 0).1 (by decide)

/-! ### ANSI-stripping lemmas -/

theorem stripGo_no_esc : ∀ (fuel : Nat) (l : List Char), escChar ∉ stripGo fuel l := by
  intro fuel
  induction fuel with
  | zero => intro l; simp [stripGo]
  | succ fuel ih =>
    intro l
    match l with
    | [] => simp [stripGo]
    | [c] =>
      simp only [stripGo]
      split
      · simp
      · next hne => simp only [List.mem_singleton]; intro h; exact hne h.symm
    | c :: d :: rest =>
      simp only [stripGo]
      split
      · split
        · exact ih _
        · split
          · exact ih _
          · exact ih _
      · next hne =>
        simp only [List.mem_cons, not_or]
        exact ⟨fun h => hne h.symm, ih _⟩

theorem stripGo_of_no_esc :
    ∀ (fuel : Nat) (l : List Char), l.length ≤ fuel → escChar ∉ l →
      stripGo fuel l = l := by
  intro fuel
  induction fuel with
  | zero =>
    intro l hl _
    have : l = [] := List.eq_nil_of_length_eq_zero (Nat.le_zero.mp hl)
    subst this; rfl
  | succ fuel ih =>
    intro l hl hesc
    match l with
    | [] => rfl
    | [c] =>
      have : c ≠ escChar := fun h => hesc (h ▸ List.mem_singleton_self c)
      simp [stripGo, this]
    | c :: d :: rest =>
      have hc : c ≠ escChar := fun h => hesc (h ▸ List.mem_cons_self c _)
      simp only [stripGo, if_neg (fun h => hc h)]
      congr 1
      exact ih (d :: rest) (by simp only [List.length_cons] at *; omega)
        (fun h => hesc (List.mem_cons_of_mem c h))

/-- C2: the output of `strip_ansi` contains no ESC (0x1B) byte, and
consequently `strip_ansi` applied twice yields the same result as applied
once (every string, including ones with malformed or truncated escape
sequences, maps to a fixed point). -/
theorem strip_ansi_idempotent (l : List Char) :
    escChar ∉ strip_ansi l ∧ strip_ansi (strip_ansi l) = strip_ansi l := by
  refine ⟨stripGo_no_esc _ _, ?_⟩
  exact stripGo_of_no_esc _ _ le_rfl (stripGo_no_esc _ _)

/-- Witness for C2 on a truncated escape sequence. -/
theorem strip_ansi_idempotent_witness :
    escChar ∉ strip_ansi [escChar, '['] ∧
    strip_ansi (strip_ansi [escChar, '[']) = strip_ansi [escChar, '['] :=
  strip_ansi_idempotent [escChar, '[']

/-! ## TextNormalizer: `strip_overstrikes` (main.c lines 156-166)

The C scanner keeps a destination cursor `dst` into the output built so
far; a backspace moves `dst` back one position when `dst > s` (deleting
the most recent output character) and is itself never copied.  The model
carries the output built so far in reverse order (`acc`), so deleting the
most recent output character is `acc.tail`. -/

/-- The `strip_overstrikes` scanning loop; `acc` is the reversed output
produced so far. -/
def overGo : List Char → List Char → List Char
  | acc, [] => acc.reverse
  | acc, c :: rest => if c = bsChar then overGo acc.tail rest else overGo (c :: acc) rest

/-- `strip_overstrikes` from main.c. -/
def strip_overstrikes (l : List Char) : List Char := overGo [] l

theorem overGo_no_bs : ∀ (l acc : List Char), bsChar ∉ acc → bsChar ∉ overGo acc l := by
  intro l
  induction l with
  | nil =>
    intro acc hacc
    simp only [overGo, List.mem_reverse]
    exact hacc
  | cons c rest ih =>
    intro acc hacc
    simp only [overGo]
    split
    · exact ih _ (fun h => hacc (List.mem_of_mem_tail h))
    · next hne =>
      refine ih _ ?_
      simp only [List.mem_cons, not_or]
      exact ⟨fun h => hne h.symm, hacc⟩

theorem overGo_append_no_bs :
    ∀ (l acc r : List Char), bsChar ∉ l →
      overGo acc (l ++ r) = overGo (l.reverse ++ acc) r := by
  intro l
  induction l with
  | nil => intro acc r _; simp
  | cons c cs ih =>
    intro acc r hl
    have hc : c ≠ bsChar := fun h => hl (h ▸ List.mem_cons_self c cs)
    have step : overGo acc (c :: (cs ++ r)) = overGo (c :: acc) (cs ++ r) := by
      simp [overGo, hc]
    rw [List.cons_append, step, ih (c :: acc) r (fun h => hl (List.mem_cons_of_mem c h))]
    simp

/-- C8: `strip_overstrikes` deletes, for each backspace, the immediately
preceding output character when one exists: a leading backspace is a
no-op, a backspace following backspace-free text `l` erases the last
character of `l`, the output never contains a backspace byte, and a line
made only of paired overstrike patterns `x<BS>x` collapses to the
deduplicated visible characters. -/
theorem strip_overstrikes_correct :
    (∀ l : List Char, strip_overstrikes (bsChar :: l) = strip_overstrikes l) ∧
    (∀ l r : List Char, bsChar ∉ l →
      strip_overstrikes (l ++ bsChar :: r) = strip_overstrikes (l.dropLast ++ r)) ∧
    (∀ l : List Char, bsChar ∉ strip_overstrikes l) ∧
    (∀ blocks : List Char, bsChar ∉ blocks →
      strip_overstrikes ((blocks.map (fun x => [x, bsChar, x])).flatten) = blocks) := by
  refine ⟨fun l => rfl, ?_, fun l => overGo_no_bs l [] (by simp), ?_⟩
  · intro l r hl
    show overGo [] (l ++ bsChar :: r) = overGo [] (l.dropLast ++ r)
    rw [overGo_append_no_bs l [] (bsChar :: r) hl,
      overGo_append_no_bs l.dropLast [] r
        (fun h => hl (List.dropLast_subset l h))]
    have step : overGo (l.reverse ++ []) (bsChar :: r) =
        overGo (l.reverse ++ []).tail r := by
      simp [overGo]
    rw [step]
    simp only [List.append_nil]
    rw [List.tail_reverse]
  · intro blocks hbs
    suffices h : ∀ (bl acc : List Char), bsChar ∉ bl →
        overGo acc ((bl.map (fun x => [x, bsChar, x])).flatten) = acc.reverse ++ bl by
      simpa using h blocks [] hbs
    intro bl
    induction bl with
    | nil => intro acc _; simp [overGo]
    | cons x xs ih =>
      intro acc hx
      have hxb : x ≠ bsChar := fun h => hx (h ▸ List.mem_cons_self x xs)
      have step : ∀ t, overGo acc (x :: bsChar :: x :: t) = overGo (x :: acc) t := by
        intro t
        simp [overGo, hxb]
      simp only [List.map_cons, List.flatten_cons, List.cons_append, List.nil_append, step]
      rw [ih (x :: acc) (fun h => hx (List.mem_cons_of_mem x h))]
      simp

/-- Witness for C8: the overstrike line `b<BS>b o<BS>o`-style block list
for `"bold"` collapses to `"bold"`. -/
theorem strip_overstrikes_correct_witness :
    strip_overstrikes ((("bold".data).map (fun x => [x, bsChar, x])).flatten) =
      "bold".data :=
  strip_overstrikes_correct.2.2.2 "bold".data (by decide)

/-! ## SearchEngine (`search_buffer` / `find_all_matches`, main.c lines
771-793, and the match-rank recomputation in `prompt_search`,
`next_match`, `prev_match`, lines 795-859) -/

/-- Does `needle` match at the head of `hay`?  (The inner comparison loop
of `strstr`.) -/
def matches_at : List Char → List Char → Bool
  | [], _ => true
  | _ :: _, [] => false
  | n :: ns, h :: hs => n = h && matches_at ns hs

/-- `contains_substr` / `strstr`: does `hay` contain `needle` as a
contiguous substring? -/
def contains_substr : List Char → List Char → Bool
  | [], needle => matches_at needle []
  | h :: hs, needle => matches_at needle (h :: hs) || contains_substr hs needle

theorem matches_at_iff (needle hay : List Char) :
    matches_at needle hay = true ↔ needle <+: hay := by
  induction needle generalizing hay with
  | nil => simp [matches_at]
  | cons n ns ih =>
    cases hay with
    | nil => simp [matches_at]
    | cons h hs =>
      simp only [matches_at, Bool.and_eq_true, decide_eq_true_eq, ih,
        List.cons_prefix_cons]

/-- The hand-rolled substring test agrees with Mathlib's `List.IsInfix`. -/
theorem contains_substr_iff (hay needle : List Char) :
    contains_substr hay needle = true ↔ needle <:+: hay := by
  induction hay with
  | nil => simp [contains_substr, matches_at_iff]
  | cons h hs ih =>
    simp only [contains_substr, Bool.or_eq_true, matches_at_iff, ih,
      List.infix_cons_iff]

/-- The index wrap at the top of each `search_buffer` iteration: an index
`< 0` becomes `n - 1`, then an index `>= n` becomes `0`. -/
def wrapIdx (n line : Int) : Int :=
  let l1 := if line < 0 then n - 1 else line
  if l1 ≥ n then 0 else l1

/-- The scanning loop of `search_buffer`: each of the at most `line_count`
iterations first wraps the running index via `wrapIdx`, then tests the
line at that index, then steps by `direction`.  `fuel` is instantiated
with `line_count`. -/
def searchGo (lines : List (List Char)) (term : List Char) (dir : Int) :
    Nat → Int → Option Nat
  | 0, _ => none
  | fuel + 1, line =>
    let l2 : Int := wrapIdx (lines.length : Int) line
    if contains_substr (lines.getD l2.toNat []) term then some l2.toNat
    else searchGo lines term dir fuel (l2 + dir)

/-- `search_buffer` from main.c: wraparound linear search for the first
line containing `term`, starting at `start_line`, stepping by
`direction`; an empty term fails immediately. -/
def search_buffer (lines : List (List Char)) (term : List Char)
    (start_line direction : Int) : Option Nat :=
  if term = [] then none
  else searchGo lines term direction lines.length start_line

/-- `find_all_matches` from main.c: the number of lines containing the
search term (0 for the empty term). -/
def find_all_matches (lines : List (List Char)) (term : List Char) : Nat :=
  if term = [] then 0
  else lines.countP (fun l => contains_substr l term)

/-- The match-rank recomputation shared by `prompt_search`, `next_match`
and `prev_match` (main.c lines 828-832, 843-845, 855-857): the number of
matching lines strictly before line `m`. -/
def match_rank (lines : List (List Char)) (term : List Char) (m : Nat) : Nat :=
  (lines.take m).countP (fun l => contains_substr l term)

theorem contains_substr_nil (term : List Char) (h : term ≠ []) :
    contains_substr [] term = false := by
  match term with
  | t :: ts => rfl

/-- Soundness of the search loop: a returned index is in range and its
line contains the term. -/
theorem searchGo_sound (lines : List (List Char)) (term : List Char)
    (dir : Int) (hterm : term ≠ []) :
    ∀ (fuel : Nat) (line : Int) (i : Nat),
      searchGo lines term dir fuel line = some i →
      i < lines.length ∧ contains_substr (lines.getD i []) term = true := by
  intro fuel
  induction fuel with
  | zero => intro line i h; simp [searchGo] at h
  | succ fuel ih =>
    intro line i h
    simp only [searchGo] at h
    generalize hj : (wrapIdx (lines.length : Int) line).toNat = j at h
    split at h
    · next hc =>
      cases h
      refine ⟨?_, hc⟩
      by_contra hge
      push_neg at hge
      rw [List.getD_eq_default _ _ hge, contains_substr_nil term hterm] at hc
      cases hc
    · exact ih _ i h

/-- Completeness of the search loop: if no line contains the term, the
search fails. -/
theorem searchGo_none (lines : List (List Char)) (term : List Char)
    (dir : Int) (hterm : term ≠ [])
    (hnone : ∀ l ∈ lines, contains_substr l term = false) :
    ∀ (fuel : Nat) (line : Int), searchGo lines term dir fuel line = none := by
  intro fuel
  induction fuel with
  | zero => intro line; rfl
  | succ fuel ih =>
    intro line
    simp only [searchGo]
    rw [if_neg, ih]
    generalize (wrapIdx (lines.length : Int) line).toNat = j
    by_cases hlt : j < lines.length
    · rw [List.getD_eq_getElem _ _ hlt]
      simp only [Bool.not_eq_true]
      exact hnone _ (List.getElem_mem hlt)
    · push_neg at hlt
      rw [List.getD_eq_default _ _ hlt]
      simp only [Bool.not_eq_true]
      exact contains_substr_nil term hterm

/-- The demonstration buffer of §8 of the spec. -/
def demoLines : List (List Char) := ["foo".data, "bar".data, "baz".data]

/-- C3: `search_buffer` scans at most `line_count` lines from
`start_line`, wrapping indices at both ends, and returns an index of a
line containing the term as a plain case-sensitive substring (sound), or
none when no line contains it (complete); on the buffer
`["foo","bar","baz"]` with term `"ba"` the forward search from line 0
returns line 1, the match count is 2, and the rank of the match at line 2
is 1 (the wrapping behaviour is exercised by the two extra searches). -/
theorem search_buffer_correct :
    (∀ (lines : List (List Char)) (term : List Char) (start dir : Int) (i : Nat),
      search_buffer lines term start dir = some i →
      i < lines.length ∧ contains_substr (lines.getD i []) term = true) ∧
    (∀ (lines : List (List Char)) (term : List Char) (start dir : Int),
      (∀ l ∈ lines, contains_substr l term = false) →
      search_buffer lines term start dir = none) ∧
    search_buffer demoLines "ba".data 0 1 = some 1 ∧
    search_buffer demoLines "foo".data 1 1 = some 0 ∧
    search_buffer demoLines "baz".data 0 (-1) = some 2 ∧
    find_all_matches demoLines "ba".data = 2 ∧
    match_rank demoLines "ba".data 2 = 1 := by
  refine ⟨?_, ?_, by decide, by decide, by decide, by decide, by decide⟩
  · intro lines term start dir i h
    rw [search_buffer] at h
    split at h
    · cases h
    · next hterm => exact searchGo_sound lines term dir hterm _ _ _ h
  · intro lines term start dir hnone
    rw [search_buffer]
    split
    · rfl
    · next hterm => exact searchGo_none lines term dir hterm hnone _ _

/-- Witness for C3: the soundness clause applied to the concrete
demonstration search. -/
theorem search_buffer_correct_witness :
    1 < demoLines.length ∧ contains_substr (demoLines.getD 1 []) "ba".data = true :=
  search_buffer_correct.1 demoLines "ba".data 0 1 1 (by decide)

/-- C10: whenever a search finds a match line `m`, the recomputed rank
(number of matching lines strictly before `m`) is strictly below the
total match count `find_all_matches` computes over the same buffer, so
the displayed ordinal `rank + 1` never exceeds the displayed total. -/
theorem match_rank_lt_find_all_matches (lines : List (List Char))
    (term : List Char) (start dir : Int) (m : Nat)
    (h : search_buffer lines term start dir = some m) :
    match_rank lines term m < find_all_matches lines term := by
  have hterm : term ≠ [] := by
    intro he
    rw [search_buffer, if_pos he] at h
    cases h
  rw [search_buffer, if_neg hterm] at h
  obtain ⟨hm, hc⟩ := searchGo_sound lines term dir hterm _ _ _ h
  rw [match_rank, find_all_matches, if_neg hterm]
  have hsplit : lines.countP (fun l => contains_substr l term) =
      (lines.take m).countP (fun l => contains_substr l term) +
      (lines.drop m).countP (fun l => contains_substr l term) := by
    rw [← List.countP_append, List.take_append_drop]
  rw [hsplit, List.drop_eq_getElem_cons hm, List.countP_cons]
  rw [List.getD_eq_getElem _ _ hm] at hc
  simp only [hc, if_pos]
  omega

/-- Witness for C10 at the demonstration buffer: the forward search for
`"ba"` from line 0 finds line 1, whose rank is below the match total. -/
theorem match_rank_lt_find_all_matches_witness :
    match_rank demoLines "ba".data 1 < find_all_matches demoLines "ba".data :=
  match_rank_lt_find_all_matches demoLines "ba".data 0 1 1 (by decide)

/-! ## BufferStore lifecycle (`close_current_buffer`, main.c lines 736-767)

Only the fields observable through the store's prefix `[0, buffer_count)`
are modelled; the C array-with-count pair becomes a list, and the shift
loop `buffers[i] = buffers[i+1]` followed by `buffer_count--` is exactly
`List.eraseIdx` at the current index. -/

/-- One loaded document: its normalized lines, its label and its view
state. -/
structure Buffer where
  lines : List (List Char)
  filepath : List Char
  scroll_offset : Int
deriving DecidableEq

/-- The buffer store: the live buffers (the C array's first
`buffer_count` entries) and the current-buffer index. -/
structure BufferStore where
  buffers : List Buffer
  current_buffer : Nat
deriving DecidableEq

/-- `close_current_buffer` from main.c: refuse when at most one buffer
remains; otherwise free the current buffer, shift every later buffer one
slot down, decrement the count, and clamp the current index to the new
last slot when it fell off the end. -/
def close_current_buffer (s : BufferStore) : BufferStore :=
  if s.buffers.length ≤ 1 then s
  else
    let bufs := s.buffers.eraseIdx s.current_buffer
    { buffers := bufs
      current_buffer :=
        if s.current_buffer ≥ bufs.length then bufs.length - 1
        else s.current_buffer }

/-- C4: closing the current buffer of a store with more than one buffer
removes exactly that buffer (compacting the rest in order), decrements
the count, keeps the index — which then denotes the former next buffer —
unless the removed buffer was last, in which case the index becomes the
new last index; the resulting index is always in range. -/
theorem close_current_buffer_correct (s : BufferStore)
    (hcount : 1 < s.buffers.length)
    (hcur : s.current_buffer < s.buffers.length) :
    (close_current_buffer s).buffers = s.buffers.eraseIdx s.current_buffer ∧
    (close_current_buffer s).buffers =
      s.buffers.take s.current_buffer ++ s.buffers.drop (s.current_buffer + 1) ∧
    (close_current_buffer s).buffers.length = s.buffers.length - 1 ∧
    (close_current_buffer s).current_buffer =
      (if s.current_buffer = s.buffers.length - 1 then s.buffers.length - 2
       else s.current_buffer) ∧
    (close_current_buffer s).current_buffer <
      (close_current_buffer s).buffers.length := by
  have hnot : ¬ s.buffers.length ≤ 1 := by omega
  have hlen : (s.buffers.eraseIdx s.current_buffer).length =
      s.buffers.length - 1 := List.length_eraseIdx_of_lt hcur
  refine ⟨?_, ?_, ?_, ?_, ?_⟩
  · simp [close_current_buffer, hnot]
  · simp only [close_current_buffer, if_neg hnot]
    exact List.eraseIdx_eq_take_drop_succ _ _
  · simp only [close_current_buffer, if_neg hnot]
    exact hlen
  · simp only [close_current_buffer, if_neg hnot, hlen]
    split
    · next h => rw [if_pos (by omega)]; omega
    · next h => rw [if_neg (by omega)]
  · simp only [close_current_buffer, if_neg hnot, hlen]
    split <;> omega

/-- A three-buffer demonstration store with current index 1. -/
def demoBufA : Buffer := ⟨["alpha".data], "a.txt".data, 0⟩

/-- Second demonstration buffer. -/
def demoBufB : Buffer := ⟨["beta".data], "b.txt".data, 0⟩

/-- Third demonstration buffer. -/
def demoBufC : Buffer := ⟨["gamma".data], "c.txt".data, 0⟩

/-- The three-buffer demonstration store of §8 of the spec, current
index 1. -/
def demoStore3 : BufferStore := ⟨[demoBufA, demoBufB, demoBufC], 1⟩

/-- A single-buffer store. -/
def demoStore1 : BufferStore := ⟨[demoBufA], 0⟩

/-- Witness for C4: closing buffer index 1 of 3 leaves 2 buffers with the
former index-2 buffer now at index 1, which stays current. -/
theorem close_current_buffer_correct_witness :
    (close_current_buffer demoStore3).buffers = [demoBufA, demoBufC] ∧
    (close_current_buffer demoStore3).current_buffer = 1 := by
  have h := close_current_buffer_correct demoStore3 (by decide) (by decide)
  exact ⟨h.1.trans (by decide), h.2.2.2.1.trans (by decide)⟩

/-- C5: attempting to close the sole remaining buffer (count `<= 1`) is
rejected atomically: the store — buffer sequence, count and current index
— is returned entirely unchanged. -/
theorem close_current_buffer_rejected (s : BufferStore)
    (h : s.buffers.length ≤ 1) : close_current_buffer s = s := by
  rw [close_current_buffer, if_pos h]

/-- Witness for C5 on the single-buffer store. -/
theorem close_current_buffer_rejected_witness :
    close_current_buffer demoStore1 = demoStore1 :=
  close_current_buffer_rejected demoStore1 (by decide)

/-! ## LanguageClassifier (`detect_language`, src/unnamed/part_000 lines
1143-1168; the copy in main.c lines 202-219 has the same structure with a
smaller table) -/

/-- The language tags of the extended variant. -/
inductive Language where
  | none | c | cpp | python | java | js | ts | html | css | shell
  | markdown | man | rust | go | ruby | php | sql | json | xml | yaml
deriving DecidableEq

/-- `strrchr(filepath, '.')`: the suffix of the path starting at its last
dot, or `none` when the path has no dot. -/
def file_ext (path : List Char) : Option (List Char) :=
  let r := path.reverse.takeWhile (fun c => c ≠ '.')
  if r.length = path.length then Option.none else some ('.' :: r.reverse)

/-- The extension-dispatch chain of `detect_language` (everything after
the `!ext` guard): the case-sensitive extension table, then the man-page
marker fallback `/man/` / `.man` on the whole path, then `none`. -/
def detect_language_ext (path ext : List Char) : Language :=
  if ext = ".c".data ∨ ext = ".h".data then Language.c
  else if ext = ".cpp".data ∨ ext = ".cc".data ∨ ext = ".hpp".data ∨ ext = ".cxx".data then Language.cpp
  else if ext = ".py".data then Language.python
  else if ext = ".java".data then Language.java
  else if ext = ".js".data then Language.js
  else if ext = ".ts".data ∨ ext = ".tsx".data then Language.ts
  else if ext = ".html".data ∨ ext = ".htm".data then Language.html
  else if ext = ".css".data then Language.css
  else if ext = ".sh".data ∨ ext = ".bash".data ∨ ext = ".zsh".data then Language.shell
  else if ext = ".md".data ∨ ext = ".markdown".data then Language.markdown
  else if ext = ".rs".data then Language.rust
  else if ext = ".go".data then Language.go
  else if ext = ".rb".data then Language.ruby
  else if ext = ".php".data then Language.php
  else if ext = ".sql".data then Language.sql
  else if ext = ".json".data then Language.json
  else if ext = ".xml".data then Language.xml
  else if ext = ".yaml".data ∨ ext = ".yml".data then Language.yaml
  else if contains_substr path "/man/".data ∨ contains_substr path ".man".data
    then Language.man
  else Language.none

/-- `detect_language` from src/unnamed/part_000: a path without a dot is
tagged `none` immediately (the `!ext` guard); otherwise the extension
(from the last dot) is dispatched through the table and fallback chain. -/
def detect_language (path : List Char) : Language :=
  match file_ext path with
  | Option.none => Language.none
  | some ext => detect_language_ext path ext

/-- The extension table of the spec (§4.3), written as a lookup separate
from the scanner so the two can be compared. -/
def ext_table (ext : List Char) : Option Language :=
  if ext = ".c".data ∨ ext = ".h".data then some Language.c
  else if ext = ".cpp".data ∨ ext = ".cc".data ∨ ext = ".hpp".data ∨
    ext = ".cxx".data then some Language.cpp
  else if ext = ".py".data then some Language.python
  else if ext = ".java".data then some Language.java
  else if ext = ".js".data then some Language.js
  else if ext = ".ts".data ∨ ext = ".tsx".data then some Language.ts
  else if ext = ".html".data ∨ ext = ".htm".data then some Language.html
  else if ext = ".css".data then some Language.css
  else if ext = ".sh".data ∨ ext = ".bash".data ∨ ext = ".zsh".data then
    some Language.shell
  else if ext = ".md".data ∨ ext = ".markdown".data then some Language.markdown
  else if ext = ".rs".data then some Language.rust
  else if ext = ".go".data then some Language.go
  else if ext = ".rb".data then some Language.ruby
  else if ext = ".php".data then some Language.php
  else if ext = ".sql".data then some Language.sql
  else if ext = ".json".data then some Language.json
  else if ext = ".xml".data then some Language.xml
  else if ext = ".yaml".data ∨ ext = ".yml".data then some Language.yaml
  else Option.none

/-- C6 counterexample: the path `/usr/man/ls` contains the man-page
marker `/man/` yet, having no extension at all, is tagged `none`, not
`man` — the fallback does not apply to paths without an extension. -/
theorem detect_language_counterexample :
    contains_substr "/usr/man/ls".data "/man/".data = true ∧
    detect_language "/usr/man/ls".data = Language.none ∧
    Language.none ≠ Language.man := by decide

set_option maxHeartbeats 1000000 in
/-- C6 as amended: `detect_language` is a function of the extension
matched case-sensitively against the fixed table; the man-page-marker
fallback applies exactly to the paths that have an extension matching no
table entry; a path with no extension at all is tagged `none` without the
fallback.  Case-sensitivity and both fallback outcomes are exercised on
concrete paths. -/
theorem detect_language_amended :
    (∀ path : List Char,
      (file_ext path = Option.none → detect_language path = Language.none) ∧
      (∀ ext, file_ext path = some ext →
        detect_language path =
          (match ext_table ext with
           | some lang => lang
           | Option.none =>
             if contains_substr path "/man/".data ∨
                contains_substr path ".man".data
             then Language.man else Language.none))) ∧
    detect_language "a.py".data = Language.python ∧
    detect_language "a.PY".data = Language.none ∧
    detect_language "/man/ls.1".data = Language.man ∧
    detect_language "notes.txt".data = Language.none := by
  refine ⟨?_, by decide, by decide, by decide, by decide⟩
  intro path
  constructor
  · intro h
    unfold detect_language
    rw [h]
  · intro ext h
    unfold detect_language
    rw [h]
    show detect_language_ext path ext = _
    unfold detect_language_ext ext_table
    by_cases h1 : ext = ".c".data ∨ ext = ".h".data
    · rw [if_pos h1, if_pos h1]
    rw [if_neg h1, if_neg h1]
    by_cases h2 : ext = ".cpp".data ∨ ext = ".cc".data ∨ ext = ".hpp".data ∨ ext = ".cxx".data
    · rw [if_pos h2, if_pos h2]
    rw [if_neg h2, if_neg h2]
    by_cases h3 : ext = ".py".data
    · rw [if_pos h3, if_pos h3]
    rw [if_neg h3, if_neg h3]
    by_cases h4 : ext = ".java".data
    · rw [if_pos h4, if_pos h4]
    rw [if_neg h4, if_neg h4]
    by_cases h5 : ext = ".js".data
    · rw [if_pos h5, if_pos h5]
    rw [if_neg h5, if_neg h5]
    by_cases h6 : ext = ".ts".data ∨ ext = ".tsx".data
    · rw [if_pos h6, if_pos h6]
    rw [if_neg h6, if_neg h6]
    by_cases h7 : ext = ".html".data ∨ ext = ".htm".data
    · rw [if_pos h7, if_pos h7]
    rw [if_neg h7, if_neg h7]
    by_cases h8 : ext = ".css".data
    · rw [if_pos h8, if_pos h8]
    rw [if_neg h8, if_neg h8]
    by_cases h9 : ext = ".sh".data ∨ ext = ".bash".data ∨ ext = ".zsh".data
    · rw [if_pos h9, if_pos h9]
    rw [if_neg h9, if_neg h9]
    by_cases h10 : ext = ".md".data ∨ ext = ".markdown".data
    · rw [if_pos h10, if_pos h10]
    rw [if_neg h10, if_neg h10]
    by_cases h11 : ext = ".rs".data
    · rw [if_pos h11, if_pos h11]
    rw [if_neg h11, if_neg h11]
    by_cases h12 : ext = ".go".data
    · rw [if_pos h12, if_pos h12]
    rw [if_neg h12, if_neg h12]
    by_cases h13 : ext = ".rb".data
    · rw [if_pos h13, if_pos h13]
    rw [if_neg h13, if_neg h13]
    by_cases h14 : ext = ".php".data
    · rw [if_pos h14, if_pos h14]
    rw [if_neg h14, if_neg h14]
    by_cases h15 : ext = ".sql".data
    · rw [if_pos h15, if_pos h15]
    rw [if_neg h15, if_neg h15]
    by_cases h16 : ext = ".json".data
    · rw [if_pos h16, if_pos h16]
    rw [if_neg h16, if_neg h16]
    by_cases h17 : ext = ".xml".data
    · rw [if_pos h17, if_pos h17]
    rw [if_neg h17, if_neg h17]
    by_cases h18 : ext = ".yaml".data ∨ ext = ".yml".data
    · rw [if_pos h18, if_pos h18]
    rw [if_neg h18, if_neg h18]

/-- Witness for C6's amended claim: the fallback clause applied to the
concrete path `/man/ls.1`, whose extension `.1` misses the table. -/
theorem detect_language_amended_witness :
    detect_language "/man/ls.1".data =
      (match ext_table ".1".data with
       | some lang => lang
       | Option.none =>
         if contains_substr "/man/ls.1".data "/man/".data ∨
            contains_substr "/man/ls.1".data ".man".data
         then Language.man else Language.none) :=
  ((detect_language_amended.1 "/man/ls.1".data).2 ".1".data (by decide))

/-! ## Viewport scrolling (`handle_input`, main.c lines 1150-1191, and
the loaders' `scroll_offset = 0`, lines 485-534)

Each key's effect on `scroll_offset` is modelled as a function of the
quantities the C code reads: `line_count`, `visible_lines` (the terminal
height minus 3) and the current offset.  C integer division truncates
toward zero, which is `Int.tdiv`. -/

/-- The per-buffer invariant `0 <= scroll_offset < max(1, line_count)`. -/
def scroll_inv (line_count off : Int) : Prop :=
  0 ≤ off ∧ off < max 1 line_count

/-- The loaders (`load_file`, `load_stdin`, `load_command`,
`load_http_response`) all initialize `scroll_offset = 0`. -/
def load_scroll_offset : Int := 0

/-- Key `j` / down arrow. -/
def scroll_down (line_count off : Int) : Int :=
  if off < line_count - 1 then off + 1 else off

/-- Key `k` / up arrow. -/
def scroll_up (off : Int) : Int :=
  if 0 < off then off - 1 else off

/-- Key `g`. -/
def jump_top : Int := 0

/-- Key `G`: `line_count - visible_lines`, clamped below at 0. -/
def jump_bottom (line_count visible : Int) : Int :=
  if line_count - visible < 0 then 0 else line_count - visible

/-- Key `d` / Ctrl-D: add half a page, clamp above at
`line_count - visible_lines`, then clamp below at 0. -/
def half_page_down (line_count visible off : Int) : Int :=
  let o1 := off + Int.tdiv visible 2
  let o2 := if o1 > line_count - visible then line_count - visible else o1
  if o2 < 0 then 0 else o2

/-- Key `u` / Ctrl-U: subtract half a page, clamp below at 0. -/
def half_page_up (visible off : Int) : Int :=
  if off - Int.tdiv visible 2 < 0 then 0 else off - Int.tdiv visible 2

/-- Key `n` (`next_match`): move to the next match when one exists. -/
def next_match_offset (lines : List (List Char)) (term : List Char)
    (off : Int) : Int :=
  if term = [] then off
  else
    match search_buffer lines term (off + 1) 1 with
    | some m => (m : Int)
    | Option.none => off

/-- Key `N` (`prev_match`): move to the previous match when one exists. -/
def prev_match_offset (lines : List (List Char)) (term : List Char)
    (off : Int) : Int :=
  if term = [] then off
  else
    match search_buffer lines term (off - 1) (-1) with
    | some m => (m : Int)
    | Option.none => off

/-- Key `/` (`prompt_search`): jump to the first match from the top when
one exists. -/
def prompt_search_offset (lines : List (List Char)) (term : List Char)
    (off : Int) : Int :=
  match search_buffer lines term 0 1 with
  | some m => (m : Int)
  | Option.none => off

theorem search_offset_inv (lines : List (List Char)) (term : List Char)
    (off : Int) (start dir : Int) (hinv : scroll_inv (lines.length : Int) off) :
    scroll_inv (lines.length : Int)
      (match search_buffer lines term start dir with
       | some m => (m : Int)
       | Option.none => off) := by
  cases hsb : search_buffer lines term start dir with
  | none => exact hinv
  | some m =>
    have hterm : term ≠ [] := by
      intro he
      rw [search_buffer, if_pos he] at hsb
      cases hsb
    rw [search_buffer, if_neg hterm] at hsb
    have hm := (searchGo_sound lines term dir hterm _ _ _ hsb).1
    show scroll_inv (lines.length : Int) (m : Int)
    refine ⟨Int.natCast_nonneg m, ?_⟩
    have : (m : Int) < (lines.length : Int) := by exact_mod_cast hm
    omega

/-- C7 counterexample: the invariant is not preserved unconditionally.
With `visible_lines = 0` (a terminal of height 3, since
`visible_lines = max_y - 3` carries no positivity guard) the `G` handler
sets `scroll_offset = line_count - visible_lines`: on a 5-line buffer
whose offset 0 satisfies the invariant, jump-to-bottom yields offset 5,
violating `scroll_offset < max(1, line_count)`. -/
theorem scroll_inv_counterexample :
    scroll_inv 5 0 ∧ jump_bottom 5 0 = 5 ∧ ¬ scroll_inv 5 (jump_bottom 5 0) := by
  refine ⟨⟨by norm_num, by norm_num⟩, rfl, ?_⟩
  intro h
  have := h.2
  rw [jump_bottom] at this
  norm_num at this

/-- C7 as amended: the invariant `0 <= scroll_offset < max(1, line_count)`
holds after loading (`scroll_offset = 0`) and is preserved by every scroll
operation — line up/down, jump to top/bottom, half-page up/down — and by
all three search-match navigations, provided at least one line of content
is visible (`visible_lines >= 1`); with `visible_lines <= 0` the
jump-to-bottom handler itself breaks the invariant. -/
theorem scroll_inv_preserved (line_count visible off off2 : Int)
    (lines : List (List Char)) (term : List Char)
    (hlc : 0 ≤ line_count) (hvis : 1 ≤ visible)
    (hinv : scroll_inv line_count off)
    (hinv2 : scroll_inv (lines.length : Int) off2) :
    scroll_inv line_count load_scroll_offset ∧
    scroll_inv line_count (scroll_down line_count off) ∧
    scroll_inv line_count (scroll_up off) ∧
    scroll_inv line_count jump_top ∧
    scroll_inv line_count (jump_bottom line_count visible) ∧
    scroll_inv line_count (half_page_down line_count visible off) ∧
    scroll_inv line_count (half_page_up visible off) ∧
    scroll_inv (lines.length : Int) (next_match_offset lines term off2) ∧
    scroll_inv (lines.length : Int) (prev_match_offset lines term off2) ∧
    scroll_inv (lines.length : Int) (prompt_search_offset lines term off2) := by
  obtain ⟨h0, hlt⟩ := hinv
  have hv2 : 0 ≤ Int.tdiv visible 2 := Int.tdiv_nonneg (by omega) (by omega)
  refine ⟨?_, ?_, ?_, ?_, ?_, ?_, ?_, ?_, ?_, ?_⟩
  · unfold load_scroll_offset scroll_inv
    omega
  · unfold scroll_down scroll_inv
    split_ifs <;> omega
  · unfold scroll_up scroll_inv
    split_ifs <;> omega
  · unfold jump_top scroll_inv
    omega
  · unfold jump_bottom scroll_inv
    split_ifs <;> omega
  · simp only [half_page_down, scroll_inv]
    revert hv2
    generalize Int.tdiv visible 2 = v2
    intro hv2
    split_ifs <;> omega
  · unfold half_page_up scroll_inv
    revert hv2
    generalize Int.tdiv visible 2 = v2
    intro hv2
    split_ifs <;> omega
  · unfold next_match_offset
    split_ifs
    · exact hinv2
    · exact search_offset_inv lines term off2 (off2 + 1) 1 hinv2
  · unfold prev_match_offset
    split_ifs
    · exact hinv2
    · exact search_offset_inv lines term off2 (off2 - 1) (-1) hinv2
  · exact search_offset_inv lines term off2 0 1 hinv2

/-- Witness for C7 at concrete values: a 3-line buffer, a 4-row viewport,
offset 1, and the demonstration search buffer. -/
theorem scroll_inv_preserved_witness :
    scroll_inv 3 (scroll_down 3 1) ∧ scroll_inv 3 (jump_bottom 3 4) ∧
    scroll_inv (demoLines.length : Int)
      (next_match_offset demoLines "ba".data 0) := by
  have h := scroll_inv_preserved 3 4 1 0 demoLines "ba".data
    (by norm_num) (by norm_num) (by constructor <;> norm_num)
    (by constructor <;> norm_num)
  exact ⟨h.2.1, h.2.2.2.2.1, h.2.2.2.2.2.2.2.1⟩

/-! ## Man-page highlighting (`is_man_section_header`, main.c lines
262-271, and the `LANG_MAN` branch of `highlight_line`, lines 338-404)

The ncurses drawing calls are modelled as a list of styled spans: each
`attron`/`draw_tok`/`mvaddch` group becomes one `Span`. -/

/-- The style classes of the highlighter (the `COLOR_*` pairs used for
text). -/
inductive Style where
  | normal | keyword | strlit | comment | number | typ | func
deriving DecidableEq

/-- One contiguous styled run of a rendered line. -/
structure Span where
  style : Style
  bold : Bool
  text : List Char
deriving DecidableEq

/-- The scanning loop of `is_man_section_header`: skip spaces; any
non-letter fails, any lowercase letter fails, letters are counted; at the
end require at least 3 letters. -/
def mshGo : Nat → List Char → Bool
  | letters, [] => decide (3 ≤ letters)
  | letters, c :: rest =>
    if c = ' ' then mshGo letters rest
    else if ¬ c.isAlpha then false
    else if ¬ c.isUpper then false
    else mshGo (letters + 1) rest

/-- `is_man_section_header` from main.c. -/
def is_man_section_header (s : List Char) : Bool := mshGo 0 s

/-- The character class of a man-page word: alphanumeric, underscore or
hyphen (the run condition at main.c line 378). -/
def man_word_char (c : Char) : Bool := c.isAlphanum || c = '_' || c = '-'

/-- The token loop of the `LANG_MAN` branch of `highlight_line`:
whitespace is copied plainly; a token starting with `-` runs to the next
whitespace and is styled Number+bold; a word run followed by a
cross-reference suffix of the exact shape `(<digits>)` is styled
Function+bold with the suffix styled Type; any other word and any other
character is plain.  Each iteration consumes at least one character, so a
fuel of the line length is enough. -/
def manTok : Nat → List Char → List Span
  | 0, _ => []
  | _ + 1, [] => []
  | fuel + 1, c :: rest =>
    if c_isspace c then ⟨Style.normal, false, [c]⟩ :: manTok fuel rest
    else if c = '-' then
      ⟨Style.number, true, (c :: rest).takeWhile (fun x => ¬ c_isspace x)⟩ ::
        manTok fuel ((c :: rest).dropWhile (fun x => ¬ c_isspace x))
    else if c.isAlpha || c = '_' then
      let word := (c :: rest).takeWhile man_word_char
      let after := (c :: rest).dropWhile man_word_char
      match after with
      | '(' :: d :: ts =>
        if d.isDigit ∧ ts ≠ [] then
          match ts.dropWhile (fun x => x.isDigit) with
          | ')' :: ts2 =>
            ⟨Style.func, true, word⟩ ::
              ⟨Style.typ, false,
                '(' :: d :: ts.takeWhile (fun x => x.isDigit) ++ [')']⟩ ::
              manTok fuel ts2
          | _ => ⟨Style.normal, false, word⟩ :: manTok fuel after
        else ⟨Style.normal, false, word⟩ :: manTok fuel after
      | _ => ⟨Style.normal, false, word⟩ :: manTok fuel after
    else ⟨Style.normal, false, [c]⟩ :: manTok fuel rest

/-- The `LANG_MAN` branch of `highlight_line`: skip leading spaces; when
the rest is a section header, emit the whole line as one Keyword+bold
span and stop; otherwise run the token loop on the line. -/
def highlight_line_man (line : List Char) : List Span :=
  if is_man_section_header (line.dropWhile (fun c => c = ' ')) then
    [⟨Style.keyword, true, line⟩]
  else manTok line.length line

theorem countP_ne_space_cons (c : Char) (rest : List Char) :
    (c :: rest).countP (fun x => x ≠ ' ') =
      rest.countP (fun x => x ≠ ' ') + (if c = ' ' then 0 else 1) := by
  rw [List.countP_cons]
  by_cases h : c = ' ' <;> simp [h]

theorem mshGo_iff (s : List Char) :
    ∀ k : Nat, mshGo k s = true ↔
      ((∀ c ∈ s, (c.isAlpha ∧ c.isUpper) ∨ c = ' ') ∧
        3 ≤ k + s.countP (fun c => c ≠ ' ')) := by
  induction s with
  | nil =>
    intro k
    simp [mshGo]
  | cons c rest ih =>
    intro k
    rw [countP_ne_space_cons]
    by_cases hsp : c = ' '
    · have hstep : mshGo k (c :: rest) = mshGo k rest := by
        simp [mshGo, hsp]
      rw [hstep, ih k, List.forall_mem_cons, if_pos hsp]
      constructor
      · rintro ⟨hall, hk⟩
        exact ⟨⟨Or.inr hsp, hall⟩, by omega⟩
      · rintro ⟨⟨_, hall⟩, hk⟩
        exact ⟨hall, by omega⟩
    · by_cases ha : c.isAlpha
      · by_cases hu : c.isUpper
        · have hstep : mshGo k (c :: rest) = mshGo (k + 1) rest := by
            simp [mshGo, hsp, ha, hu]
          rw [hstep, ih (k + 1), List.forall_mem_cons, if_neg hsp]
          constructor
          · rintro ⟨hall, hk⟩
            exact ⟨⟨Or.inl ⟨ha, hu⟩, hall⟩, by omega⟩
          · rintro ⟨⟨_, hall⟩, hk⟩
            exact ⟨hall, by omega⟩
        · have hstep : mshGo k (c :: rest) = false := by
            simp [mshGo, hsp, ha, hu]
          rw [hstep, List.forall_mem_cons]
          constructor
          · intro h; cases h
          · rintro ⟨⟨h1, _⟩, _⟩
            rcases h1 with ⟨_, hup⟩ | hc
            · exact absurd hup hu
            · exact absurd hc hsp
      · have hstep : mshGo k (c :: rest) = false := by
          simp [mshGo, hsp, ha]
        rw [hstep, List.forall_mem_cons]
        constructor
        · intro h; cases h
        · rintro ⟨⟨h1, _⟩, _⟩
          rcases h1 with ⟨hal, _⟩ | hc
          · exact absurd hal ha
          · exact absurd hc hsp

theorem countP_space_alpha (s : List Char)
    (hall : ∀ c ∈ s, (c.isAlpha ∧ c.isUpper) ∨ c = ' ') :
    s.countP (fun c => c ≠ ' ') = s.countP (fun c => c.isAlpha) := by
  refine List.countP_congr ?_
  intro x hx
  rcases hall x hx with ⟨hal, _⟩ | hx'
  · simp only [decide_eq_true_eq]
    constructor
    · intro _; exact hal
    · intro _
      intro hxs
      rw [hxs] at hal
      exact absurd hal (by decide)
  · subst hx'
    simp

/-- C9: `is_man_section_header` accepts exactly the strings made only of
letters and spaces whose letters are all uppercase and at least 3 in
number; the spec's four examples hold; and in man mode a line whose
space-stripped body passes the check is rendered as one single
Keyword+bold span covering the whole line, with no further
tokenization. -/
theorem is_man_section_header_correct :
    (∀ s : List Char, is_man_section_header s = true ↔
      ((∀ c ∈ s, c.isAlpha ∨ c = ' ') ∧ (∀ c ∈ s, c.isAlpha → c.isUpper) ∧
        3 ≤ s.countP (fun c => c.isAlpha))) ∧
    is_man_section_header "NAME".data = true ∧
    is_man_section_header "SEE ALSO".data = true ∧
    is_man_section_header "Name".data = false ∧
    is_man_section_header "AB".data = false ∧
    (∀ line : List Char,
      is_man_section_header (line.dropWhile (fun c => c = ' ')) = true →
      highlight_line_man line = [⟨Style.keyword, true, line⟩]) := by
  refine ⟨?_, by decide, by decide, by decide, by decide, ?_⟩
  · intro s
    rw [is_man_section_header, mshGo_iff s 0]
    constructor
    · rintro ⟨hall, hk⟩
      refine ⟨?_, ?_, ?_⟩
      · intro c hc
        rcases hall c hc with ⟨hal, _⟩ | hc'
        · exact Or.inl hal
        · exact Or.inr hc'
      · intro c hc hal
        rcases hall c hc with ⟨_, hup⟩ | hc'
        · exact hup
        · rw [hc'] at hal
          exact absurd hal (by decide)
      · rw [← countP_space_alpha s hall]
        omega
    · rintro ⟨halpha, hupper, hk⟩
      have hall : ∀ c ∈ s, (c.isAlpha ∧ c.isUpper) ∨ c = ' ' := by
        intro c hc
        rcases halpha c hc with hal | hc'
        · exact Or.inl ⟨hal, hupper c hc hal⟩
        · exact Or.inr hc'
      refine ⟨hall, ?_⟩
      rw [countP_space_alpha s hall]
      omega
  · intro line h
    rw [highlight_line_man, if_pos h]

/-- Witness for C9: the header line `"NAME"` renders as a single
Keyword+bold span. -/
theorem is_man_section_header_correct_witness :
    highlight_line_man "NAME".data = [⟨Style.keyword, true, "NAME".data⟩] :=
  is_man_section_header_correct.2.2.2.2.2 "NAME".data (by decide)

end Peek
